import Mathlib

/-!
Verification of the aTRAM preprocessing and assembler-configuration logic.

The development shallowly embeds:
* the configuration helpers of lib/assembler.py (default_kmer,
  default_cov_cutoff, find_program), with Python's float() restricted to a
  decimal-literal model mapping into the rationals;
* the preprocessor subsystem (shard planner, name splitting, FASTA shard
  writer, preprocess phase ordering), which is exercised by the repository
  tests; its implementation file is absent from the source slice, so those
  definitions are modelled from the specification and pinned to the concrete
  behavior asserted by tests/test_atram_preprocessor.py.
-/

namespace ATram

/-! ## lib/assembler.py -/

/-- Embedding of default_kmer from lib/assembler.py: the kmer argument is
clamped to 31 for the velvet assembler, and returned unchanged otherwise. -/
def default_kmer (kmer : Int) (assembler : String) : Int :=
  if assembler = "velvet" ∧ kmer > 31 then 31 else kmer

/-- Whether a list of characters consists solely of decimal digits. -/
def all_digits (cs : List Char) : Bool :=
  cs.all Char.isDigit

/-- Value of a decimal digit string, most significant digit first. -/
def digits_val (cs : List Char) : Nat :=
  cs.foldl (fun acc c => acc * 10 + (c.toNat - 48)) 0

/-- Model of Python float() on an unsigned decimal literal: digits with an
optional fractional part, at least one digit overall. Exponent forms,
inf/nan and embedded underscores are outside the model. -/
def parse_unsigned_float (cs : List Char) : Option ℚ :=
  let ip := cs.takeWhile (fun c => c ≠ '.')
  let rest := cs.dropWhile (fun c => c ≠ '.')
  match rest with
  | [] => if ip ≠ [] ∧ all_digits ip then some ((digits_val ip : ℚ)) else none
  | _ :: fp =>
      if (ip ≠ [] ∨ fp ≠ []) ∧ all_digits ip ∧ all_digits fp then
        some ((digits_val ip : ℚ) + (digits_val fp : ℚ) / (10 : ℚ) ^ fp.length)
      else none

/-- Model of Python float() on a string: an optional sign followed by an
unsigned decimal literal. Returns none where float() raises ValueError. -/
def parse_float (s : String) : Option ℚ :=
  match s.data with
  | '-' :: cs => (parse_unsigned_float cs).map (fun q => -q)
  | '+' :: cs => parse_unsigned_float cs
  | cs => parse_unsigned_float cs

/-- The error message raised for a bad coverage cutoff (lib/assembler.py). -/
def cov_cutoff_err : String :=
  "Read coverage cutoff value. Must be a positive float value, or \"auto\", or \"off\""

/-- Embedding of default_cov_cutoff from lib/assembler.py: accept "off" and
"auto" verbatim; otherwise parse as a float, treating an unparsable or a
negative value as fatal (log.fatal terminates the process, modelled as
Except.error); accepted inputs are returned unchanged. -/
def default_cov_cutoff (cov_cutoff : String) : Except String String :=
  if cov_cutoff = "off" ∨ cov_cutoff = "auto" then Except.ok cov_cutoff
  else
    match parse_float cov_cutoff with
    | none => Except.error cov_cutoff_err
    | some value =>
        if value < 0 then Except.error cov_cutoff_err else Except.ok cov_cutoff

/-- The (dedented, formatted) message printed by find_program when the
required executable is missing (lib/assembler.py). -/
def find_program_err (program : String) : String :=
  "\nWe could not find the \"" ++ program ++
  "\" program. You either need to\ninstall it or you need to adjust the PATH environment\nvariable with the \"--path\" option so that aTRAM can\nfind it."

/-- Embedding of find_program from lib/assembler.py. The set of executables
discoverable on the execution path (shutil.which) is abstracted as the
boolean predicate which. sys.exit with the error text is modelled as
Except.error; falling through is Except.ok. -/
def find_program (which : String → Bool) (assembler_name program assembler_arg : String)
    (opt : Bool) : Except String Unit :=
  if assembler_arg = assembler_name ∧ opt = true ∧ which program = false then
    Except.error (find_program_err program)
  else Except.ok ()

/-! ## The preprocessor subsystem (atram_preprocessor.py, absent from the
source slice; modelled from the specification and the repository tests). -/

/-- Modelled from the spec: the Store operation getShardCutPair, whose
implementation (atram_preprocessor / lib.db) is missing from the source
slice. The store is abstracted by its ordered list of row names; the lookup
returns the two row names that straddle the offset in the ordered scan, or
a sentinel (none) when the offset is out of range. -/
def get_shard_cut_pair (names : List String) (offset : Nat) : Option (String × String) :=
  if h : 1 ≤ offset ∧ offset < names.length then
    some (names.get ⟨offset - 1, by omega⟩, names.get ⟨offset, h.2⟩)
  else none

/-- Modelled from the spec: the boundary-adjustment step of the shard
planner (assign_seqs_to_shards, missing from the source slice). Per the
reference behavior pinned by test_assign_seqs_to_shards, a candidate offset
whose looked-up cut pair has two DIFFERENT names advances by one; an offset
whose pair is equal, or whose lookup is out of range, is unchanged. -/
def adjust_cut (lookup : Nat → Option (String × String)) (offset : Nat) : Nat :=
  match lookup offset with
  | some pair => if pair.1 ≠ pair.2 then offset + 1 else offset
  | none => offset

/-- Modelled from the spec: the i-th shard boundary of the planner
(assign_seqs_to_shards, missing from the source slice). Boundary 0 is row 0,
boundary shards (and beyond) is the total row count, and each internal
boundary is the adjusted naive cut point floor(i * total / shards); per the
reference scenario the naive cut points for 100 rows in 3 shards are 33 and
66. Internal boundaries are computed independently of one another. -/
def shard_boundary (lookup : Nat → Option (String × String)) (total shards i : Nat) : Nat :=
  if i = 0 then 0
  else if shards ≤ i then total
  else adjust_cut lookup (i * total / shards)

/-- Modelled from the spec: assign_seqs_to_shards (missing from the source
slice). Emits one (limit, offset) window per shard, where window i runs from
boundary i to boundary i+1; limit is the signed row count of the window and
offset its starting row index. -/
def assign_seqs_to_shards (lookup : Nat → Option (String × String)) (total shards : Nat) :
    List (Int × Int) :=
  (List.range shards).map (fun i =>
    ((shard_boundary lookup total shards (i + 1) : Int) -
       (shard_boundary lookup total shards i : Int),
     (shard_boundary lookup total shards i : Int)))

/-- The mocked cut-pair lookup of the reference scenario: the pair
(seq1, seq2) at the naive first boundary 33 and (seq3, seq3) at the naive
second boundary 66. -/
def reference_lookup : Nat → Option (String × String) := fun o =>
  if o = 33 then some ("seq1", "seq2")
  else if o = 66 then some ("seq3", "seq3")
  else none

/-- Description, in the claim's own words, of the shift the planner applies
at one candidate boundary: one extra row when the looked-up pair names
differ, no shift otherwise. Used to state the amended adjustment claim. -/
def cut_shift (lookup : Nat → Option (String × String)) (offset : Nat) : Nat :=
  match lookup offset with
  | some pair => if pair.1 ≠ pair.2 then 1 else 0
  | none => 0

/-- Modelled from the spec: the load-time read-name splitting of the batch
loader (load_seqs, missing from the source slice), pinned by test_load_seqs.
A name whose final two characters are a separator (slash or blank) followed
by the digit 1 or 2, with a nonempty base, is split into (base, digit); any
other name is stored verbatim with an empty batch id — in particular
seq5/3 and seq8/a.1 suffix pass through unchanged. -/
def split_seq_name (name : String) : String × String :=
  match name.data.reverse with
  | d :: sep :: c :: rest =>
      if (d = '1' ∨ d = '2') ∧ (sep = '/' ∨ sep = ' ') then
        (String.mk ((c :: rest).reverse), String.mk [d])
      else (name, "")
  | _ => (name, "")

/-- Modelled from the spec: one streamed write of fill_blast_fasta (missing
from the source slice): append the two-line FASTA entry of one stored row
(name, batch_id, sequence) to the file contents written so far. The header
is the name, preceded by a greater-than sign, with a slash and the batch id
appended only when the batch id is non-empty. -/
def write_record (acc : String) (row : String × String × String) : String :=
  let seq_end := if row.2.1 ≠ "" then "/" ++ row.2.1 else ""
  acc ++ (">" ++ row.1 ++ seq_end ++ "\n") ++ (row.2.2 ++ "\n")

/-- Modelled from the spec: fill_blast_fasta (missing from the source
slice), restricted to its write behavior: stream the rows the store returns
for the shard window, in order, writing each as a two-line FASTA entry. -/
def fill_blast_fasta (rows : List (String × String × String)) : String :=
  rows.foldl write_record ""

/-- The two-line FASTA entry of one stored row, as the specification
describes it: header line, then sequence line. -/
def fasta_entry (row : String × String × String) : String :=
  ">" ++ row.1 ++ (if row.2.1 ≠ "" then "/" ++ row.2.1 else "") ++ "\n" ++ row.2.2 ++ "\n"

/-- The observable steps of one preprocess run, per the specification and
the call history asserted by test_preprocess. -/
inductive PreprocessStep where
  | logFileName
  | logSetup
  | connect
  | createMetadataTable
  | createSequencesTable
  | loadSeqs
  | logIndexInfo
  | createSequencesIndex
  | assignSeqsToShards
  | createAllBlastShards
  deriving DecidableEq, Repr

/-- Modelled from the spec: the fixed sequence of steps performed by
preprocess (missing from the source slice), in the order pinned by
test_preprocess: logging setup, store connection, schema setup, loading,
index creation, shard assignment, shard building. The order does not depend
on the run's arguments. -/
def preprocess_trace : List PreprocessStep :=
  [PreprocessStep.logFileName, PreprocessStep.logSetup, PreprocessStep.connect,
   PreprocessStep.createMetadataTable, PreprocessStep.createSequencesTable,
   PreprocessStep.loadSeqs, PreprocessStep.logIndexInfo,
   PreprocessStep.createSequencesIndex, PreprocessStep.assignSeqsToShards,
   PreprocessStep.createAllBlastShards]

/-! ## Helper lemmas -/

/-- An adjusted cut point never moves backwards. -/
theorem le_adjust_cut (lookup : Nat → Option (String × String)) (o : Nat) :
    o ≤ adjust_cut lookup o := by
  unfold adjust_cut
  cases lookup o with
  | none => exact Nat.le_refl o
  | some p => dsimp only; split <;> omega

/-- An adjusted cut point advances by at most one row. -/
theorem adjust_cut_le_succ (lookup : Nat → Option (String × String)) (o : Nat) :
    adjust_cut lookup o ≤ o + 1 := by
  unfold adjust_cut
  cases lookup o with
  | none => exact Nat.le_succ o
  | some p => dsimp only; split <;> omega

/-- The store lookup is a sentinel at or beyond the row count, so such cut
points are never adjusted. -/
theorem adjust_cut_out_of_range (names : List String) (o : Nat) (h : names.length ≤ o) :
    adjust_cut (get_shard_cut_pair names) o = o := by
  unfold adjust_cut get_shard_cut_pair
  rw [dif_neg (by omega)]

/-- The adjusted cut point is the naive cut point plus the shift that the
looked-up pair dictates. -/
theorem adjust_cut_eq_add_shift (lookup : Nat → Option (String × String)) (o : Nat) :
    adjust_cut lookup o = o + cut_shift lookup o := by
  unfold adjust_cut cut_shift
  cases lookup o with
  | none => rfl
  | some p => dsimp only; split <;> omega

/-- Boundary 0 of the planner is row 0. -/
theorem shard_boundary_zero (lookup : Nat → Option (String × String)) (total shards : Nat) :
    shard_boundary lookup total shards 0 = 0 := rfl

/-- Boundary number shards of the planner is the total row count. -/
theorem shard_boundary_last (lookup : Nat → Option (String × String)) (total shards : Nat)
    (h : 1 ≤ shards) : shard_boundary lookup total shards shards = total := by
  unfold shard_boundary
  rw [if_neg (by omega), if_pos (Nat.le_refl shards)]

/-- Against the store of a given name list, every planner boundary stays
within the row count. -/
theorem shard_boundary_le_length (names : List String) (shards i : Nat) (h : 1 ≤ shards) :
    shard_boundary (get_shard_cut_pair names) names.length shards i ≤ names.length := by
  unfold shard_boundary
  split
  · omega
  · split
    · exact Nat.le_refl _
    · rename_i hi hs
      have hnaive : i * names.length / shards ≤ names.length := by
        calc i * names.length / shards ≤ shards * names.length / shards :=
              Nat.div_le_div_right (Nat.mul_le_mul_right _ (by omega))
          _ = names.length := Nat.mul_div_cancel_left _ (by omega)
      rcases Nat.lt_or_ge (i * names.length / shards) names.length with hlt | hge
      · calc adjust_cut (get_shard_cut_pair names) (i * names.length / shards)
            ≤ i * names.length / shards + 1 := adjust_cut_le_succ _ _
          _ ≤ names.length := by omega
      · rw [adjust_cut_out_of_range names _ hge]; omega

/-- Against the store of a given name list, planner boundaries are monotone
in the boundary index. -/
theorem shard_boundary_mono (names : List String) (shards i : Nat) (h : 1 ≤ shards) :
    shard_boundary (get_shard_cut_pair names) names.length shards i ≤
      shard_boundary (get_shard_cut_pair names) names.length shards (i + 1) := by
  by_cases hi0 : i = 0
  · subst hi0
    rw [shard_boundary_zero]
    exact Nat.zero_le _
  · by_cases hlast : shards ≤ i + 1
    · have : shard_boundary (get_shard_cut_pair names) names.length shards (i + 1)
          = names.length := by
        unfold shard_boundary
        rw [if_neg (by omega), if_pos hlast]
      rw [this]
      exact shard_boundary_le_length names shards i h
    · have hi1 : i < shards := by omega
      have hlhs : shard_boundary (get_shard_cut_pair names) names.length shards i
          = adjust_cut (get_shard_cut_pair names) (i * names.length / shards) := by
        unfold shard_boundary
        rw [if_neg hi0, if_neg (by omega)]
      have hrhs : shard_boundary (get_shard_cut_pair names) names.length shards (i + 1)
          = adjust_cut (get_shard_cut_pair names) ((i + 1) * names.length / shards) := by
        unfold shard_boundary
        rw [if_neg (by omega), if_neg (by omega)]
      rw [hlhs, hrhs]
      have hnat : i * names.length / shards ≤ (i + 1) * names.length / shards :=
        Nat.div_le_div_right (Nat.mul_le_mul_right _ (by omega))
      rcases Nat.eq_or_lt_of_le hnat with heq | hlt
      · rw [heq]
      · calc adjust_cut (get_shard_cut_pair names) (i * names.length / shards)
            ≤ i * names.length / shards + 1 := adjust_cut_le_succ _ _
          _ ≤ (i + 1) * names.length / shards := hlt
          _ ≤ adjust_cut (get_shard_cut_pair names) ((i + 1) * names.length / shards) :=
              le_adjust_cut _ _


/-- The k-th emitted window runs from boundary k to boundary k+1. -/
theorem assign_getElem (lookup : Nat → Option (String × String)) (total shards k : Nat)
    (hk : k < shards) :
    (assign_seqs_to_shards lookup total shards)[k]? =
      some ((shard_boundary lookup total shards (k + 1) : Int) -
              (shard_boundary lookup total shards k : Int),
            (shard_boundary lookup total shards k : Int)) := by
  unfold assign_seqs_to_shards
  rw [List.getElem?_map, List.getElem?_range hk]
  rfl

/-- Telescoping sum of successive differences over an initial segment. -/
theorem telescope_sum (g : Nat → Int) (n : Nat) :
    ((List.range n).map (fun i => g (i + 1) - g i)).sum = g n - g 0 := by
  induction n with
  | zero => simp
  | succ n ih =>
      rw [List.range_succ, List.map_append, List.sum_append, ih]
      simp

/-- C1: with 100 stored rows requested as 3 shards, and cut-pair lookups
returning (seq1, seq2) at the naive first boundary 33 and (seq3, seq3) at
the naive second boundary 66, the shard planner returns exactly the window
list [(34, 0), (32, 34), (34, 66)]. -/
theorem assign_reference_scenario :
    assign_seqs_to_shards reference_lookup 100 3 = [(34, 0), (32, 34), (34, 66)] := by
  decide

/-- C7: default_kmer returns 31 exactly when the assembler is velvet and
the kmer exceeds 31; in every other case (non-velvet assembler, or a kmer
of at most 31) the kmer is returned unchanged. -/
theorem default_kmer_cases (kmer : Int) (assembler : String) :
    (assembler = "velvet" → 31 < kmer → default_kmer kmer assembler = 31)
    ∧ (assembler ≠ "velvet" → default_kmer kmer assembler = kmer)
    ∧ (kmer ≤ 31 → default_kmer kmer assembler = kmer) := by
  unfold default_kmer
  refine ⟨fun h1 h2 => ?_, fun h1 => ?_, fun h1 => ?_⟩
  · rw [if_pos ⟨h1, h2⟩]
  · rw [if_neg (fun hc => h1 hc.1)]
  · rw [if_neg (fun hc => by omega)]

/-- Witness for C7 at concrete inputs: velvet with kmer 64 is clamped to
31; abyss with kmer 64 and velvet with kmer 20 are unchanged. -/
theorem default_kmer_cases_witness :
    default_kmer 64 "velvet" = 31 ∧ default_kmer 64 "abyss" = 64 ∧
      default_kmer 20 "velvet" = 20 :=
  ⟨(default_kmer_cases 64 "velvet").1 rfl (by decide),
   (default_kmer_cases 64 "abyss").2.1 (by decide),
   (default_kmer_cases 20 "velvet").2.2 (by decide)⟩

/-- C9: in the preprocess run each phase step occurs exactly once and
loading strictly precedes sequence-index creation, which strictly precedes
shard assignment, which strictly precedes shard building. -/
theorem preprocess_phase_order :
    preprocess_trace.count PreprocessStep.loadSeqs = 1
    ∧ preprocess_trace.count PreprocessStep.createSequencesIndex = 1
    ∧ preprocess_trace.count PreprocessStep.assignSeqsToShards = 1
    ∧ preprocess_trace.count PreprocessStep.createAllBlastShards = 1
    ∧ preprocess_trace.indexOf PreprocessStep.loadSeqs <
        preprocess_trace.indexOf PreprocessStep.createSequencesIndex
    ∧ preprocess_trace.indexOf PreprocessStep.createSequencesIndex <
        preprocess_trace.indexOf PreprocessStep.assignSeqsToShards
    ∧ preprocess_trace.indexOf PreprocessStep.assignSeqsToShards <
        preprocess_trace.indexOf PreprocessStep.createAllBlastShards := by
  decide

/-- C2 counterexample: for the store with rows named a, b, b, c split into
2 shards, the cut pair at the naive boundary 2 is (b, b) — the row before
the boundary and the row at the boundary share a name — yet the planner
leaves that boundary at 2, emitting [(2, 0), (2, 2)] rather than the
[(3, 0), (1, 3)] the claimed equal-names increment would produce. -/
theorem assign_equal_pair_not_incremented :
    get_shard_cut_pair ["a", "b", "b", "c"] 2 = some ("b", "b")
    ∧ assign_seqs_to_shards (get_shard_cut_pair ["a", "b", "b", "c"]) 4 2 = [(2, 0), (2, 2)]
    ∧ assign_seqs_to_shards (get_shard_cut_pair ["a", "b", "b", "c"]) 4 2 ≠ [(3, 0), (1, 3)] := by
  refine ⟨by decide, by decide, by decide⟩

/-- C2 amended: at each internal boundary i (1 ≤ i < shardCount) the
planner looks up the cut pair at the naive candidate offset
floor(i * total / shards) and shifts that boundary by one row exactly when
the two looked-up names DIFFER, leaving it unchanged when they are equal or
the lookup is out of range; each boundary is computed independently from
its own naive candidate, so the shift does not propagate. -/
theorem assign_offset_rule (lookup : Nat → Option (String × String)) (total shards i : Nat)
    (h1 : 1 ≤ i) (h2 : i < shards) :
    ∃ w, (assign_seqs_to_shards lookup total shards)[i]? = some w ∧
      w.2 = ((i * total / shards : Nat) : Int) +
        ((cut_shift lookup (i * total / shards) : Nat) : Int) := by
  refine ⟨_, assign_getElem lookup total shards i h2, ?_⟩
  have hb : shard_boundary lookup total shards i =
      adjust_cut lookup (i * total / shards) := by
    unfold shard_boundary
    rw [if_neg (by omega), if_neg (by omega)]
  dsimp only
  rw [hb, adjust_cut_eq_add_shift]
  push_cast
  ring

/-- Witness for C2 amended: the store with rows a, b, b, c split into 2
shards has its single internal boundary at the naive offset 2 plus a zero
shift, since the pair there is (b, b). -/
theorem assign_offset_rule_witness :
    ∃ w, (assign_seqs_to_shards (get_shard_cut_pair ["a", "b", "b", "c"]) 4 2)[1]? = some w ∧
      w.2 = ((1 * 4 / 2 : Nat) : Int) +
        ((cut_shift (get_shard_cut_pair ["a", "b", "b", "c"]) (1 * 4 / 2) : Nat) : Int) :=
  assign_offset_rule (get_shard_cut_pair ["a", "b", "b", "c"]) 4 2 1 (by decide) (by decide)

/-- C3: for every store contents and every shard count of at least 1, the
planner emits exactly one window per shard; every limit is non-negative;
the first window starts at row 0; each window starts where the previous
one ends, with offsets ascending; and the limits sum to the row count, so
the windows partition the stored rows exactly. -/
theorem assign_partition (names : List String) (shards : Nat) (h : 1 ≤ shards) :
    (assign_seqs_to_shards (get_shard_cut_pair names) names.length shards).length = shards
    ∧ (∀ w ∈ assign_seqs_to_shards (get_shard_cut_pair names) names.length shards, 0 ≤ w.1)
    ∧ (∀ w, (assign_seqs_to_shards (get_shard_cut_pair names) names.length shards)[0]? = some w →
        w.2 = 0)
    ∧ (∀ k a b,
        (assign_seqs_to_shards (get_shard_cut_pair names) names.length shards)[k]? = some a →
        (assign_seqs_to_shards (get_shard_cut_pair names) names.length shards)[k + 1]? = some b →
        b.2 = a.2 + a.1 ∧ a.2 ≤ b.2)
    ∧ ((assign_seqs_to_shards (get_shard_cut_pair names) names.length shards).map Prod.fst).sum
        = (names.length : Int) := by
  have hlen : (assign_seqs_to_shards (get_shard_cut_pair names) names.length shards).length
      = shards := by
    unfold assign_seqs_to_shards
    rw [List.length_map, List.length_range]
  refine ⟨hlen, ?_, ?_, ?_, ?_⟩
  · intro w hw
    unfold assign_seqs_to_shards at hw
    rcases List.mem_map.mp hw with ⟨k, hk, rfl⟩
    have hmono := shard_boundary_mono names shards k h
    dsimp only
    omega
  · intro w hw
    rw [assign_getElem _ _ _ _ (by omega)] at hw
    cases hw
    rw [shard_boundary_zero]
    rfl
  · intro k a b ha hb
    have hk1 : k + 1 < shards := by
      by_contra hc
      rw [List.getElem?_eq_none (by omega)] at hb
      cases hb
    rw [assign_getElem _ _ _ _ (by omega)] at ha
    rw [assign_getElem _ _ _ _ hk1] at hb
    cases ha
    cases hb
    have hmono := shard_boundary_mono names shards k h
    constructor
    · dsimp only
      ring
    · dsimp only
      exact_mod_cast hmono
  · unfold assign_seqs_to_shards
    rw [List.map_map]
    have ht := telescope_sum
      (fun i => ((shard_boundary (get_shard_cut_pair names) names.length shards i : Int))) shards
    simp only at ht
    simp only [Function.comp_def]
    rw [ht, shard_boundary_zero, shard_boundary_last _ _ _ h]
    simp

/-- Witness for C3: the partition properties hold for the store with rows
x, x, y split into 2 shards. -/
theorem assign_partition_witness :
    (assign_seqs_to_shards (get_shard_cut_pair ["x", "x", "y"]) (["x", "x", "y"] : List String).length 2).length = 2
    ∧ (∀ w ∈ assign_seqs_to_shards (get_shard_cut_pair ["x", "x", "y"]) (["x", "x", "y"] : List String).length 2, 0 ≤ w.1)
    ∧ (∀ w, (assign_seqs_to_shards (get_shard_cut_pair ["x", "x", "y"]) (["x", "x", "y"] : List String).length 2)[0]? = some w →
        w.2 = 0)
    ∧ (∀ k a b,
        (assign_seqs_to_shards (get_shard_cut_pair ["x", "x", "y"]) (["x", "x", "y"] : List String).length 2)[k]? = some a →
        (assign_seqs_to_shards (get_shard_cut_pair ["x", "x", "y"]) (["x", "x", "y"] : List String).length 2)[k + 1]? = some b →
        b.2 = a.2 + a.1 ∧ a.2 ≤ b.2)
    ∧ ((assign_seqs_to_shards (get_shard_cut_pair ["x", "x", "y"]) (["x", "x", "y"] : List String).length 2).map Prod.fst).sum
        = ((["x", "x", "y"] : List String).length : Int) :=
  assign_partition ["x", "x", "y"] 2 (by decide)

/-- C4: default_cov_cutoff accepts exactly the strings off and auto and the
strings parsing as a non-negative float, returning the accepted value; every
other input (unparsable, or parsing to a negative value) is rejected with
the fatal configuration error. -/
theorem default_cov_cutoff_accepts_iff (s : String) :
    (default_cov_cutoff s = Except.ok s ↔
      s = "off" ∨ s = "auto" ∨ ∃ v, parse_float s = some v ∧ 0 ≤ v)
    ∧ (default_cov_cutoff s = Except.ok s ∨
        default_cov_cutoff s = Except.error cov_cutoff_err) := by
  unfold default_cov_cutoff
  by_cases hoa : s = "off" ∨ s = "auto"
  · rw [if_pos hoa]
    exact ⟨⟨fun _ => by tauto, fun _ => rfl⟩, Or.inl rfl⟩
  · rw [if_neg hoa]
    push_neg at hoa
    cases hp : parse_float s with
    | none =>
        refine ⟨⟨fun hok => (nomatch hok), ?_⟩, Or.inr rfl⟩
        rintro (hc | hc | ⟨v, hv, _⟩)
        · exact absurd hc hoa.1
        · exact absurd hc hoa.2
        · cases hv
    | some v =>
        dsimp only
        by_cases hv : v < 0
        · rw [if_pos hv]
          refine ⟨⟨fun hok => (nomatch hok), ?_⟩, Or.inr rfl⟩
          rintro (hc | hc | ⟨w, hw, hw0⟩)
          · exact absurd hc hoa.1
          · exact absurd hc hoa.2
          · have hwv : v = w := Option.some.inj hw
            linarith
        · rw [if_neg hv]
          exact ⟨⟨fun _ => Or.inr (Or.inr ⟨v, rfl, le_of_not_lt hv⟩), fun _ => rfl⟩,
            Or.inl rfl⟩

/-- Witness for C4: the string 0.5 parses as the non-negative rational one
half and is accepted verbatim. -/
theorem default_cov_cutoff_accepts_iff_witness :
    default_cov_cutoff "0.5" = Except.ok "0.5" := by
  have hp : parse_float "0.5" =
      some (((digits_val ['0'] : Nat) : ℚ) +
        ((digits_val ['5'] : Nat) : ℚ) / (10 : ℚ) ^ (1 : Nat)) := rfl
  have h0 : digits_val ['0'] = 0 := by decide
  have h5 : digits_val ['5'] = 5 := by decide
  refine (default_cov_cutoff_accepts_iff "0.5").1.mpr (Or.inr (Or.inr ⟨_, hp, ?_⟩))
  rw [h0, h5]
  norm_num

/-- C10: every accepted input is returned as the original string unchanged
(no normalization), so default_cov_cutoff is the identity on its accepted
domain and therefore idempotent. -/
theorem default_cov_cutoff_identity (s r : String)
    (h : default_cov_cutoff s = Except.ok r) :
    r = s ∧ default_cov_cutoff r = Except.ok r := by
  have hr : r = s := by
    unfold default_cov_cutoff at h
    split at h
    · exact (Except.ok.inj h).symm
    · cases hp : parse_float s <;> rw [hp] at h
      · cases h
      · dsimp only at h
        split at h
        · cases h
        · exact (Except.ok.inj h).symm
  subst hr
  exact ⟨rfl, h⟩

/-- Witness for C10: the numeric string 0.50 is accepted and returned as
that exact string, and feeding the result back in accepts it again. -/
theorem default_cov_cutoff_identity_witness :
    ("0.50" : String) = "0.50" ∧ default_cov_cutoff "0.50" = Except.ok "0.50" :=
  default_cov_cutoff_identity "0.50" "0.50" (by
    have hp : parse_float "0.50" =
        some (((digits_val ['0'] : Nat) : ℚ) +
          ((digits_val ['5', '0'] : Nat) : ℚ) / (10 : ℚ) ^ (2 : Nat)) := rfl
    have h0 : digits_val ['0'] = 0 := by decide
    have h50 : digits_val ['5', '0'] = 50 := by decide
    unfold default_cov_cutoff
    rw [if_neg (by decide), hp]
    dsimp only
    rw [if_neg (by rw [h0, h50]; norm_num)])

/-- C8: find_program terminates fatally exactly when the selected assembler
matches the assembler being checked, the option flag is set, and the
required executable is not on the execution path; and the fatal message
names the missing program. -/
theorem find_program_fatal_iff (which : String → Bool)
    (assembler_name program assembler_arg : String) (opt : Bool) :
    ((∃ e, find_program which assembler_name program assembler_arg opt = Except.error e) ↔
      assembler_arg = assembler_name ∧ opt = true ∧ which program = false)
    ∧ (∀ e, find_program which assembler_name program assembler_arg opt = Except.error e →
        ∃ pre post, e = pre ++ program ++ post) := by
  unfold find_program
  constructor
  · constructor
    · rintro ⟨e, he⟩
      by_contra hc
      rw [if_neg hc] at he
      cases he
    · intro hc
      rw [if_pos hc]
      exact ⟨_, rfl⟩
  · intro e he
    split at he
    · cases he
      exact ⟨"\nWe could not find the \"",
        "\" program. You either need to\ninstall it or you need to adjust the PATH environment\nvariable with the \"--path\" option so that aTRAM can\nfind it.",
        rfl⟩
    · cases he

/-- Witness for C8: when the selected assembler is the one being checked,
the option is set, and nothing is on the path, find_program exits with an
error. -/
theorem find_program_fatal_iff_witness :
    ∃ e, find_program (fun _ => false) "velvet" "velveth" "velvet" true = Except.error e :=
  (find_program_fatal_iff (fun _ => false) "velvet" "velveth" "velvet" true).1.mpr
    ⟨rfl, rfl, rfl⟩

/-- A name of at most two characters cannot have the form base plus a
two-character pair suffix with a nonempty base. -/
theorem not_pair_suffix_of_short (name : String) (h : name.data.length ≤ 2) :
    ¬ ∃ base sep d, base ≠ ([] : List Char) ∧ (sep = '/' ∨ sep = ' ') ∧ (d = '1' ∨ d = '2') ∧
      name.data = base ++ [sep, d] := by
  rintro ⟨base, sep, d, hb, _, _, hdata⟩
  have hlen : name.data.length = base.length + 2 := by
    rw [hdata]
    simp
  have hb0 : base.length = 0 := by omega
  exact hb (List.length_eq_zero.mp hb0)

/-- Unfolding of the name splitter on a name of at least three characters,
phrased through the reversed character list. -/
theorem split_seq_name_rev_eq (name : String) (d sep c : Char) (rest : List Char)
    (hrev : name.data.reverse = d :: sep :: c :: rest) :
    split_seq_name name =
      if (d = '1' ∨ d = '2') ∧ (sep = '/' ∨ sep = ' ') then
        (String.mk ((c :: rest).reverse), String.mk [d])
      else (name, "") := by
  unfold split_seq_name
  rw [hrev]

/-- C5 counterexample: the read name seq8/a.1 suffix has exactly the form
base, slash, alphanumeric, dot, integer, blank, suffix that the claimed
grammar strips, yet at load time it is stored verbatim with an empty
batch id rather than stripped to its base seq8. -/
theorem split_seq_name_third_pattern_not_stripped :
    "seq8/a.1 suffix" = "seq8" ++ "/" ++ "a" ++ "." ++ "1" ++ " " ++ "suffix"
    ∧ split_seq_name "seq8/a.1 suffix" = ("seq8/a.1 suffix", "")
    ∧ ("seq8/a.1 suffix" : String) ≠ "seq8" := by
  refine ⟨by decide, by decide, by decide⟩

/-- C5 amended: a read name whose trailing pair suffix is a separator
(slash or blank) followed by the digit 1 or 2, after a nonempty base, is
stored stripped to its base name with the digit as batch id; every name
without such a two-character suffix — including seq5/3 and
seq8/a.1 suffix — is stored verbatim with an empty batch id. -/
theorem split_seq_name_grammar (name : String) :
    (∃ base sep d, base ≠ ([] : List Char) ∧ (sep = '/' ∨ sep = ' ') ∧ (d = '1' ∨ d = '2') ∧
        name.data = base ++ [sep, d] ∧
        split_seq_name name = (String.mk base, String.mk [d]))
    ∨ ((¬ ∃ base sep d, base ≠ ([] : List Char) ∧ (sep = '/' ∨ sep = ' ') ∧ (d = '1' ∨ d = '2') ∧
        name.data = base ++ [sep, d])
       ∧ split_seq_name name = (name, "")) := by
  rcases hrev : name.data.reverse with _ | ⟨d, _ | ⟨sep, _ | ⟨c, rest⟩⟩⟩
  · have hlen : name.data.length ≤ 2 := by
      rw [← List.length_reverse, hrev]
      simp
    exact Or.inr ⟨not_pair_suffix_of_short name hlen, by unfold split_seq_name; rw [hrev]⟩
  · have hlen : name.data.length ≤ 2 := by
      rw [← List.length_reverse, hrev]
      simp
    exact Or.inr ⟨not_pair_suffix_of_short name hlen, by unfold split_seq_name; rw [hrev]⟩
  · have hlen : name.data.length ≤ 2 := by
      rw [← List.length_reverse, hrev]
      simp
    exact Or.inr ⟨not_pair_suffix_of_short name hlen, by unfold split_seq_name; rw [hrev]⟩
  · have hdata : name.data = (c :: rest).reverse ++ [sep, d] := by
      rw [List.reverse_eq_iff.mp hrev]
      simp
    by_cases hcond : (d = '1' ∨ d = '2') ∧ (sep = '/' ∨ sep = ' ')
    · left
      refine ⟨(c :: rest).reverse, sep, d, by simp, hcond.2, hcond.1, hdata, ?_⟩
      rw [split_seq_name_rev_eq name d sep c rest hrev, if_pos hcond]
    · right
      constructor
      · rintro ⟨base, sep1, d1, hb, hs, hd, hdata1⟩
        have hrev1 : name.data.reverse = d1 :: sep1 :: base.reverse := by
          rw [hdata1]
          simp
        rw [hrev] at hrev1
        injection hrev1 with e1 hrev2
        injection hrev2 with e2 _
        subst e1
        subst e2
        exact hcond ⟨hd, hs⟩
      · rw [split_seq_name_rev_eq name d sep c rest hrev, if_neg hcond]

/-- Joining a nonempty list of strings peels off its head. -/
theorem string_join_cons (s : String) (l : List String) :
    String.join (s :: l) = s ++ String.join l := by
  apply String.ext
  simp [String.join_eq, String.data_append]

/-- The streamed shard writer, started from any already-written prefix,
appends exactly the concatenated two-line entries of the rows in order. -/
theorem fill_foldl (rows : List (String × String × String)) :
    ∀ acc : String, rows.foldl write_record acc = acc ++ String.join (rows.map fasta_entry) := by
  induction rows with
  | nil =>
      intro acc
      simp [String.join]
  | cons r rs ih =>
      intro acc
      rw [List.foldl_cons, List.map_cons, string_join_cons, ih, ← String.append_assoc]
      congr 1
      simp [write_record, fasta_entry, String.append_assoc]

/-- C6: for every sequence of stored records, fill_blast_fasta writes
exactly the concatenation, in store order, of one two-line entry per
record: a header of the name, with a slash and the batch id appended only
when the batch id is non-empty, followed by the sequence line. -/
theorem fill_blast_fasta_entries (rows : List (String × String × String)) :
    fill_blast_fasta rows = String.join (rows.map fasta_entry) := by
  rw [fill_blast_fasta, fill_foldl rows "", String.empty_append]

end ATram
